import Mathlib

/-!
# Verification of the resume search-and-enrichment pipeline

Shallow embedding of the core routines of the repository's resume/vacancy
search route handlers, together with proofs about them:

* the company-name normalizer `cleanCompanyName` (lowercase, quote stripping,
  whitespace collapsing, removal of a fixed vocabulary of filler words via
  JS-style `\b`-delimited global regex replacement);
* the per-company paginated collector and orchestrator loop `fetchResumes`;
* the batch enricher and the retrying detail fetcher `fetchResumeDetails`;
* the vacancy search endpoint's preview truncation;
* the `chunkString` helper.

Strings are modelled as `List Char` (JS strings are sequences of code units;
every string handled here is in the Basic Multilingual Plane, where code
units and code points coincide).  JS `Date` values are modelled by their
civil calendar fields together with the millisecond timestamp arithmetic
that `Date` comparison and `setFullYear` perform.  Network responses, the
ambient clock consulted by `Date.now()` deadline checks, and per-item detail
results are abstracted as explicitly-passed oracles, so every run of the
model corresponds to one possible schedule of upstream behaviour.
-/

/-! ## Character classes (JS regex semantics)

JS regular expressions without the `u`/`v` flags classify only ASCII
`[A-Za-z0-9_]` as word characters; `\b` is a transition between a word and a
non-word character.  `\s` matches the WhiteSpace and LineTerminator sets. -/

/-- JS regex word character: `[A-Za-z0-9_]`. -/
def isWordChar (c : Char) : Bool :=
  decide ((97 ≤ c.toNat ∧ c.toNat ≤ 122) ∨ (65 ≤ c.toNat ∧ c.toNat ≤ 90) ∨
    (48 ≤ c.toNat ∧ c.toNat ≤ 57) ∨ c.toNat = 95)

/-- JS regex `\s` (WhiteSpace ∪ LineTerminator). -/
def isSpaceChar (c : Char) : Bool :=
  decide (c.toNat = 9 ∨ c.toNat = 10 ∨ c.toNat = 11 ∨ c.toNat = 12 ∨ c.toNat = 13 ∨
    c.toNat = 32 ∨ c.toNat = 0xa0 ∨ c.toNat = 0x1680 ∨
    (0x2000 ≤ c.toNat ∧ c.toNat ≤ 0x200a) ∨ c.toNat = 0x2028 ∨ c.toNat = 0x2029 ∨
    c.toNat = 0x202f ∨ c.toNat = 0x205f ∨ c.toNat = 0x3000 ∨ c.toNat = 0xfeff)

/-- The quote characters removed by `cleanCompanyName`: `/["'«»]/g`
(code points 34, 39, 171, 187). -/
def isQuoteChar (c : Char) : Bool :=
  decide (c.toNat = 34 ∨ c.toNat = 39 ∨ c.toNat = 171 ∨ c.toNat = 187)

/-- JS `String.prototype.toLowerCase`, restricted to the alphabets occurring
in this application (ASCII and Cyrillic); other characters are untouched. -/
def toLowerCaseChar (c : Char) : Char :=
  if 65 ≤ c.toNat ∧ c.toNat ≤ 90 then Char.ofNat (c.toNat + 32)
  else if 0x410 ≤ c.toNat ∧ c.toNat ≤ 0x42f then Char.ofNat (c.toNat + 32)
  else if c.toNat = 0x401 then Char.ofNat 0x451
  else c

/-! ## Whitespace collapsing and trimming

`replace(/\s+/g, ' ')` replaces every maximal run of whitespace by a single
space; `trim()` removes whitespace from both ends. -/

/-- Model of `replace(/\s+/g, ' ')`: each maximal whitespace run becomes one
space character. -/
def collapseWs : List Char → List Char
  | [] => []
  | [c] => [if isSpaceChar c then ' ' else c]
  | c1 :: c2 :: rest =>
    if isSpaceChar c1 && isSpaceChar c2 then collapseWs (c2 :: rest)
    else (if isSpaceChar c1 then ' ' else c1) :: collapseWs (c2 :: rest)

/-- JS `String.prototype.trim`. -/
def trimChars (l : List Char) : List Char :=
  ((l.dropWhile isSpaceChar).reverse.dropWhile isSpaceChar).reverse

/-! ## Global regex replacement of a `\b`-delimited word by the empty string

`cleanName.replace(new RegExp('\\b' + word + '\\b', 'g'), '')` scans left to
right; at each position the literal `word` must match and both `\b`
assertions must hold against the *original* string; after a match the scan
resumes immediately after it.  The scan is modelled with the character
preceding the current position threaded through as `prev`. -/

def isWordOpt : Option Char → Bool
  | none => false
  | some c => isWordChar c

/-- The `\b` assertion between two (possibly absent) adjacent characters. -/
def wordBoundary (a b : Option Char) : Bool :=
  isWordOpt a != isWordOpt b

/-- Does `/\bw\b/` match at the current position (`prev` = preceding char)? -/
def matchAt (w : List Char) (prev : Option Char) (s : List Char) : Bool :=
  decide (w <+: s) && wordBoundary prev w.head? && wordBoundary w.getLast? (s.drop w.length).head?

/-- First match of `/\bw\b/` in `s`: returns the text before the match and
the text after it. -/
def findMatch (w : List Char) : Option Char → List Char → Option (List Char × List Char)
  | _, [] => none
  | prev, c :: rest =>
    if matchAt w prev (c :: rest) then some ([], (c :: rest).drop w.length)
    else (findMatch w (some c) rest).map (fun p => (c :: p.1, p.2))

/-- Remove every match of `/\bw\b/g`, resuming after each match.  `fuel`
bounds the number of removals; `s.length` is always sufficient. -/
def replaceWordGo (w : List Char) : Nat → Option Char → List Char → List Char
  | 0, _, s => s
  | fuel + 1, prev, s =>
    match findMatch w prev s with
    | none => s
    | some (a, b) => a ++ replaceWordGo w fuel w.getLast? b

/-- Model of `str.replace(new RegExp('\\b' + w + '\\b', 'g'), '')`. -/
def replaceWord (w s : List Char) : List Char :=
  replaceWordGo w s.length none s

/-- The fixed vocabulary removed by `cleanCompanyName` (source order). -/
def removeWords : List (List Char) :=
  ["область".data, "край".data, "республика".data, "округ".data, "москва".data,
   "московская".data, "санкт-петербург".data, "ленинградская".data,
   "новосибирск".data, "район".data, "город".data, "пао".data, "оао".data,
   "ооо".data, "зао".data, "ао".data, "группа".data, "компаний".data,
   "компания".data, "корпорация".data, "холдинг".data, "филиал".data,
   "представительство".data]

/-- Model of the source's forEach loop applying `replaceWord` for every
entry of `removeWords`, in order. -/
def removeAllWords (s : List Char) : List Char :=
  removeWords.foldl (fun acc w => replaceWord w acc) s

/-- The name normalizer `cleanCompanyName`, on `List Char`:
lowercase; remove `["'«»]`; collapse `\s+` to one space and trim; remove each
filler word as a `\b`-delimited global replacement; collapse and trim again. -/
def cleanList (s : List Char) : List Char :=
  trimChars (collapseWs (removeAllWords
    (trimChars (collapseWs ((s.map toLowerCaseChar).filter (fun c => !isQuoteChar c))))))

/-- The name normalizer `cleanCompanyName` of the source, on `String`. -/
def cleanCompanyName (s : String) : String :=
  String.mk (cleanList s.data)

/-! ## The per-company platform query (orchestrator step 2)

Inside `fetchResumes` the query sent to the search endpoint is built as
`const fullQuery = `"${cleanName}"~1`` — an exact phrase with edit distance
one around the cleaned company name.  The surrounding function's
`searchText` parameter is in scope but does not occur in the construction. -/

/-- The search text actually sent for one company.  `searchText` mirrors the
parameter of `fetchResumes`; the source builds the query from the cleaned
company name alone. -/
def fullQuery (searchText : String) (company : String) : String :=
  "\"" ++ cleanCompanyName company ++ "\"~1"

/-! ## chunkString (process-vacancy-sheet route)

`chunkString(str, length)` repeatedly pushes `str.slice(i, i + length)` and
advances `i` by `length`.  `fuel` bounds the iteration count; for a positive
`length`, `s.length` is always sufficient (for `length = 0` the source loops
forever, which the model cuts off). -/

def chunkStringGo (len : Nat) : Nat → List Char → List (List Char)
  | 0, _ => []
  | _, [] => []
  | fuel + 1, c :: cs => (c :: cs).take len :: chunkStringGo len fuel ((c :: cs).drop len)

/-- The source's `chunkString`, on `List Char`. -/
def chunkString (s : List Char) (len : Nat) : List (List Char) :=
  chunkStringGo len s.length s

/-- Concatenating the chunks in order restores the input. -/
theorem chunkStringGo_flatten (len : Nat) (hpos : 0 < len) :
    ∀ (fuel : Nat) (s : List Char), s.length ≤ fuel → (chunkStringGo len fuel s).flatten = s := by
  intro fuel
  induction fuel with
  | zero =>
    intro s h
    have hs : s = [] := List.eq_nil_of_length_eq_zero (Nat.le_zero.mp h)
    subst hs; rfl
  | succ n ih =>
    intro s h
    cases s with
    | nil => rfl
    | cons c cs =>
      show ((c :: cs).take len :: chunkStringGo len n ((c :: cs).drop len)).flatten = c :: cs
      rw [List.flatten_cons, ih _ (by rw [List.length_drop]; simp only [List.length_cons] at h ⊢; omega)]
      exact List.take_append_drop len (c :: cs)

/-- Every chunk has length at most `len`. -/
theorem chunkStringGo_length_le (len : Nat) :
    ∀ (fuel : Nat) (s : List Char), ∀ c ∈ chunkStringGo len fuel s, c.length ≤ len := by
  intro fuel
  induction fuel with
  | zero => intro s c hc; simp [chunkStringGo] at hc
  | succ n ih =>
    intro s c hc
    cases s with
    | nil => simp [chunkStringGo] at hc
    | cons a as =>
      rcases List.mem_cons.mp hc with h | h
      · subst h; exact List.length_take_le _ _
      · exact ih _ _ h

/-- Chunking the empty list yields no chunks, for any fuel. -/
theorem chunkStringGo_nil (len : Nat) : ∀ fuel, chunkStringGo len fuel [] = [] := by
  intro fuel; cases fuel <;> rfl

/-- Every chunk except possibly the last has length exactly `len`. -/
theorem chunkStringGo_dropLast (len : Nat) :
    ∀ (fuel : Nat) (s : List Char), ∀ c ∈ (chunkStringGo len fuel s).dropLast, c.length = len := by
  intro fuel
  induction fuel with
  | zero => intro s c hc; simp [chunkStringGo] at hc
  | succ n ih =>
    intro s c hc
    cases s with
    | nil => simp [chunkStringGo] at hc
    | cons a as =>
      have hshape : chunkStringGo len (n + 1) (a :: as)
          = (a :: as).take len :: chunkStringGo len n ((a :: as).drop len) := rfl
      rw [hshape] at hc
      by_cases hr : chunkStringGo len n ((a :: as).drop len) = []
      · rw [hr] at hc; simp at hc
      · rw [List.dropLast_cons_of_ne_nil hr] at hc
        rcases List.mem_cons.mp hc with h | h
        · subst h
          have hd : (a :: as).drop len ≠ [] := by
            intro hnil; rw [hnil, chunkStringGo_nil] at hr; exact hr rfl
          have hlen : len < (a :: as).length := by
            by_contra hle
            exact hd (List.drop_eq_nil_iff.mpr (by omega))
          rw [List.length_take]
          exact Nat.min_eq_left (Nat.le_of_lt hlen)
        · exact ih _ _ h

/-- C10: `chunkString` partitions its input exactly: for every string and
every positive chunk length, the chunks concatenate back to the input, every
chunk except possibly the last has length exactly `n`, and every chunk has
length at most `n`. -/
theorem c10_chunkString_partitions (s : List Char) (n : Nat) (hpos : 0 < n) :
    (chunkString s n).flatten = s ∧
    (∀ c ∈ (chunkString s n).dropLast, c.length = n) ∧
    (∀ c ∈ chunkString s n, c.length ≤ n) :=
  ⟨chunkStringGo_flatten n hpos s.length s le_rfl,
   chunkStringGo_dropLast n s.length s,
   chunkStringGo_length_le n s.length s⟩

/-- Witness for C10 at a concrete input. -/
theorem c10_chunkString_partitions_witness :
    (chunkString "abcde".data 2).flatten = "abcde".data ∧
    (∀ c ∈ (chunkString "abcde".data 2).dropLast, c.length = 2) ∧
    (∀ c ∈ chunkString "abcde".data 2, c.length ≤ 2) :=
  c10_chunkString_partitions "abcde".data 2 (by decide)

/-- C3: evaluating the normalizer at the spec's own test pair.  The removal
regexes are `\b`-delimited, but JS `\b` recognizes only ASCII word
characters, so next to Cyrillic letters the assertion never holds and the
legal-entity token is NOT stripped: the two results differ although the code
plainly intends to remove every word of `removeWords`. -/
theorem c3_normalizer_failing_input :
    cleanCompanyName "ООО \"Ромашка\"" = "ооо ромашка" ∧
    cleanCompanyName "Ромашка" = "ромашка" ∧
    cleanCompanyName "ООО \"Ромашка\"" ≠ cleanCompanyName "Ромашка" :=
  ⟨rfl, rfl, by decide⟩

/-- C2 counterexample: with the non-empty caller query text `python`, the
query string the orchestrator constructs for company `Ромашка` does not
contain the query text at all. -/
theorem c2_counterexample :
    ("python" : String) ≠ "" ∧
    ¬ ("python".data <:+: (fullQuery "python" "Ромашка").data) :=
  ⟨by decide, by decide⟩

/-- C2 amended: the constructed per-company search text combines only the
normalized company name (in the platform's exact-phrase syntax); the
caller's query text is ignored, so the query is independent of it. -/
theorem c2_query_ignores_search_text (t₁ t₂ company : String) :
    fullQuery t₁ company = fullQuery t₂ company ∧
    (cleanCompanyName company).data <:+: (fullQuery t₁ company).data := by
  refine ⟨rfl, ⟨"\"".data, "\"~1".data, ?_⟩⟩
  show "\"".data ++ (cleanCompanyName company).data ++ "\"~1".data = (fullQuery t₁ company).data
  simp [fullQuery, String.data_append]

/-! ## JS dates and the recency filter

`isRecentOrCurrentExperience` compares `new Date(exp.end)` against
`new Date()` with `setFullYear(getFullYear() - 1)` applied, i.e. it compares
millisecond timestamps.  A `Date` is modelled by its civil fields plus the
milliseconds elapsed within the day; `toMs` is the timestamp (proleptic
Gregorian, floor division), linear in the day so that `setFullYear`'s
overflow normalization (Feb 29 → Mar 1 in a non-leap year) is reproduced
exactly.  Parsing of date strings is abstracted: an absent/empty `end`
becomes `none`, a parseable one the parsed civil date. -/

/-- Day offset of the first of each month from the first of March
(March-based year, month numbered 1-12). -/
def monthDayOffset : Nat → Int
  | 1 => 306 | 2 => 337 | 3 => 0 | 4 => 31 | 5 => 61 | 6 => 92 | 7 => 122
  | 8 => 153 | 9 => 184 | 10 => 214 | 11 => 245 | 12 => 275 | _ => 0

/-- Days since 1970-01-01 of civil date `(y, m, d)`; linear in `d`. -/
def daysFromCivil (y : Int) (m : Nat) (d : Int) : Int :=
  let yy := if m ≤ 2 then y - 1 else y
  365 * yy + yy / 4 - yy / 100 + yy / 400
    + monthDayOffset m + (d - 1) - 719468

/-- Milliseconds per day. -/
def msPerDay : Int := 86400000

/-- A JS `Date`: civil fields plus milliseconds within the day.  `month` is
1-12 (JS `getMonth() + 1`). -/
structure JsDate where
  year : Int
  month : Nat
  day : Int
  msOfDay : Int
deriving DecidableEq

/-- The timestamp of a `Date` (what JS `Date` comparison compares). -/
def JsDate.toMs (dt : JsDate) : Int :=
  daysFromCivil dt.year dt.month dt.day * msPerDay + dt.msOfDay

/-- Model of `oneYearAgo.setFullYear(oneYearAgo.getFullYear() - 1)`: the year
field is decremented and the timestamp re-derived (with normalization). -/
def subOneYear (dt : JsDate) : JsDate :=
  { dt with year := dt.year - 1 }

/-- One employment-history entry (the fields the pipeline reads).
`endDate` models `exp.end` (absent/empty string → `none`). -/
structure Experience where
  company : Option String
  endDate : Option JsDate
deriving DecidableEq

/-- The recency filter `isRecentOrCurrentExperience` of the source:
no end date → current; otherwise `endDate >= oneYearAgo`. -/
def isRecentOrCurrentExperience (now : JsDate) (exp : Experience) : Bool :=
  match exp.endDate with
  | none => true
  | some e => decide ((subOneYear now).toMs ≤ e.toMs)

/-- C4 counterexample: with a run start of 2024-06-01T00:00Z, an entry that
ended 2023-06-01T00:00Z is exactly 366 days old (the span contains
2024-02-29) — more than 365 days before the run start — yet the filter
classifies it as recent, because the code subtracts one calendar year, not
365 days. -/
theorem c4_counterexample :
    isRecentOrCurrentExperience ⟨2024, 6, 1, 0⟩ ⟨some "x", some ⟨2023, 6, 1, 0⟩⟩ = true ∧
    JsDate.toMs ⟨2024, 6, 1, 0⟩ - JsDate.toMs ⟨2023, 6, 1, 0⟩ = 366 * msPerDay :=
  ⟨rfl, by decide⟩

/-- Helper: the instant one calendar year before `now` lies between 366 and
365 days before `now` (inclusive bounds), for every civil datetime. -/
theorem subOneYear_toMs_bounds (now : JsDate) :
    now.toMs - 366 * msPerDay ≤ (subOneYear now).toMs ∧
    (subOneYear now).toMs ≤ now.toMs - 365 * msPerDay := by
  unfold JsDate.toMs subOneYear daysFromCivil msPerDay
  by_cases hc : now.month ≤ 2 <;> simp only [hc, if_true, if_false] <;> constructor <;> omega

/-- C4 amended: an entry with no end date is always recent; an entry with an
end date is recent iff the end is on/after the instant one calendar year
(`setFullYear(year - 1)`) before the run start — a boundary which is
inclusive and lies 365 to 366 days before the run start.  Hence ends within
the last 365 days are always included and ends more than 366 days old are
always excluded, but an end between 365 and 366 days old (leap-day spans) is
included exactly when it is on/after the same civil date of the previous
year. -/
theorem c4_recency_calendar_year (now : JsDate) :
    (∀ exp : Experience, exp.endDate = none → isRecentOrCurrentExperience now exp = true) ∧
    (∀ (exp : Experience) (e : JsDate), exp.endDate = some e →
      (isRecentOrCurrentExperience now exp = true ↔ (subOneYear now).toMs ≤ e.toMs)) ∧
    now.toMs - 366 * msPerDay ≤ (subOneYear now).toMs ∧
    (subOneYear now).toMs ≤ now.toMs - 365 * msPerDay := by
  refine ⟨?_, ?_, (subOneYear_toMs_bounds now).1, (subOneYear_toMs_bounds now).2⟩
  · intro exp h; simp [isRecentOrCurrentExperience, h]
  · intro exp e h; simp [isRecentOrCurrentExperience, h]

/-- Witness for C4 amended, at the concrete run start 2024-06-01T00:00Z. -/
theorem c4_recency_calendar_year_witness :
    isRecentOrCurrentExperience ⟨2024, 6, 1, 0⟩ ⟨some "a", none⟩ = true ∧
    (isRecentOrCurrentExperience ⟨2024, 6, 1, 0⟩ ⟨some "a", some ⟨2023, 6, 1, 0⟩⟩ = true ↔
      (subOneYear ⟨2024, 6, 1, 0⟩).toMs ≤ (JsDate.mk 2023 6 1 0).toMs) ∧
    (JsDate.mk 2024 6 1 0).toMs - 366 * msPerDay ≤ (subOneYear ⟨2024, 6, 1, 0⟩).toMs :=
  ⟨(c4_recency_calendar_year _).1 _ rfl,
   (c4_recency_calendar_year _).2.1 _ _ rfl,
   (c4_recency_calendar_year ⟨2024, 6, 1, 0⟩).2.2.1⟩

/-! ## Resumes, details, and the enrichment loop -/

/-- The enrichment record returned by `fetchResumeDetails` on success. -/
structure Details where
  status : String
  lastJobDescription : String
deriving DecidableEq

/-- A search result item, with the fields the pipeline reads and writes.
`status`/`lastJobDescription` start out absent and are filled by enrichment. -/
structure Resume where
  id : String
  experience : List Experience
  status : Option String
  lastJobDescription : Option String
deriving DecidableEq

/-- Merge fetched details into an item (`{ ...item, status, lastJobDescription }`);
a `null` details result pushes the item unchanged. -/
def enrichOne (details : String → Option Details) (item : Resume) : Resume :=
  match details item.id with
  | some d => { item with status := some d.status, lastJobDescription := some d.lastJobDescription }
  | none => item

def BATCH_SIZE : Nat := 10

/-- The batches `allItems.slice(i, i + BATCH_SIZE)` for `i = 0, 10, 20, …`;
`fuel` (taken as the item count) bounds the iteration. -/
def toBatches : Nat → List Resume → List (List Resume)
  | 0, _ => []
  | _, [] => []
  | fuel + 1, x :: xs => (x :: xs).take BATCH_SIZE :: toBatches fuel ((x :: xs).drop BATCH_SIZE)

/-- The batch loop of the enricher: before each batch the deadline is read
(`timeUp b` models `Date.now() - startTime > MAX_EXECUTION_MS` before batch
`b`); on expiry the loop breaks, returning only the batches enriched so far. -/
def enrichBatches (details : String → Option Details) (timeUp : Nat → Bool) :
    Nat → List (List Resume) → List Resume
  | _, [] => []
  | b, batch :: rest =>
    if timeUp b then []
    else batch.map (enrichOne details) ++ enrichBatches details timeUp (b + 1) rest

/-- The enrichment phase of `fetchResumes` applied to the capped item list. -/
def enrichLoop (details : String → Option Details) (timeUp : Nat → Bool)
    (items : List Resume) : List Resume :=
  enrichBatches details timeUp 0 (toBatches items.length items)

/-! ## The paginated collector and the company loop -/

def ITEMS_PER_PAGE : Nat := 100
def MAX_RESULTS_PER_COMPANY : Nat := 1000

/-- Upstream answer to one search page request: a parsed body, or a thrown
error / non-ok status (which the source catches and turns into `break`). -/
inductive PageResult where
  | ok (items : List Resume) (found : Nat)
  | err

/-- The exact-company-match-plus-recency filter applied to a page's items. -/
def keepItem (now : JsDate) (cleanName : String) (item : Resume) : Bool :=
  item.experience.any (fun exp =>
    (cleanCompanyName (exp.company.getD "") == cleanName) && isRecentOrCurrentExperience now exp)

/-- The per-company pagination loop.  `pageOf p` is the upstream response
for page `p`; `timeUp p` the deadline reading at the top of that iteration;
the accumulated list is returned on any stop condition, never discarded. -/
def collectPages (pageOf : Nat → PageResult) (timeUp : Nat → Bool)
    (keep : Resume → Bool) : Nat → Nat → List Resume → List Resume
  | 0, _, acc => acc
  | fuel + 1, page, acc =>
    if timeUp page || decide (MAX_RESULTS_PER_COMPANY ≤ acc.length) then acc
    else
      match pageOf page with
      | .err => acc
      | .ok items found =>
        if items.isEmpty then acc
        else
          let acc2 := acc ++ items.filter keep
          if decide (found ≤ page * ITEMS_PER_PAGE) then acc2
          else collectPages pageOf timeUp keep fuel (page + 1) acc2

/-- Oracles for one run: per-company-and-page upstream responses, the
deadline readings at each check site, and the (post-retry) detail results. -/
structure Env where
  page : Nat → Nat → PageResult
  pageFuel : Nat → Nat
  companyTime : Nat → Bool
  pageTime : Nat → Nat → Bool
  batchTime : Nat → Bool
  details : String → Option Details

/-- The company loop of `fetchResumes`, accumulating `allItems`: deadline
and total-cap checks between companies, skip on empty cleaned name. -/
def collectCompanies (env : Env) (now : JsDate) (limit : Nat) :
    Nat → List Resume → List String → List Resume
  | _, acc, [] => acc
  | ci, acc, company :: rest =>
    if env.companyTime ci then acc
    else if decide (limit ≤ acc.length) then acc
    else
      let cleanName := cleanCompanyName company
      if cleanName == "" then collectCompanies env now limit (ci + 1) acc rest
      else
        collectCompanies env now limit (ci + 1)
          (acc ++ collectPages (env.page ci) (env.pageTime ci) (keepItem now cleanName)
            (env.pageFuel ci) 0 []) rest

/-- Model of `fetchResumes`: collect per company, cap (`slice(0, limit)`),
then enrich in batches.  `searchText` mirrors the unused source parameter. -/
def fetchResumes (env : Env) (now : JsDate) (searchText : String) (limit : Nat)
    (companies : List String) : List Resume :=
  enrichLoop env.details env.batchTime
    ((collectCompanies env now limit 0 [] companies).take limit)

/-- The `limitedItems` of the GET handler:
`allItems.slice(0, isPreview ? 10 : totalLimit)`. -/
def resumeGetLimitedItems (env : Env) (now : JsDate) (searchText : String)
    (totalLimit : Nat) (companies : List String) (mode : String) : List Resume :=
  (fetchResumes env now searchText totalLimit companies).take
    (if mode == "preview" then 10 else totalLimit)

/-! ## The retrying detail fetcher -/

/-- Outcome of one HTTP attempt inside `fetchResumeDetails`. -/
inductive AttemptResult where
  | ok (d : Details)
  | rate429
  | httpError
  | netError

def MAX_RETRIES : Nat := 2

/-- One call of `fetchResumeDetails` with `retries` remaining; `attempt` is
the outcome of each successive HTTP attempt.  Returns the final value
(`none` models `return null`) paired with the list of delays waited, each
`(MAX_RETRIES - retries + 1) * 1000` ms.  A 429 with no retries left falls
through to the `!response.ok` throw and is caught, returning `null`; any
caught error likewise retries while `retries > 0` and otherwise yields
`null`. -/
def fetchDetailsGo (attempt : Nat → AttemptResult) : Nat → Nat → Option Details × List Nat
  | idx, 0 =>
    match attempt idx with
    | .ok d => (some d, [])
    | _ => (none, [])
  | idx, r + 1 =>
    match attempt idx with
    | .ok d => (some d, [])
    | _ =>
      let res := fetchDetailsGo attempt (idx + 1) r
      (res.1, ((MAX_RETRIES - (r + 1) + 1) * 1000) :: res.2)

/-- Model of `fetchResumeDetails(resumeId, accessToken)` (default retries). -/
def fetchResumeDetails (attempt : Nat → AttemptResult) : Option Details × List Nat :=
  fetchDetailsGo attempt 0 MAX_RETRIES

/-! ## The vacancy search endpoint's truncation -/

/-- A vacancy search result item (opaque to the truncation logic). -/
structure VacancyItem where
  id : String
deriving DecidableEq

/-- The response of the vacancy GET handler: JSON body or CSV attachment,
each carrying the sliced item list. -/
inductive VacancyResponse where
  | json (items : List VacancyItem)
  | csv (items : List VacancyItem)
deriving DecidableEq

/-- The tail of the vacancy GET handler, after `allItems` is accumulated:
`isPreview = searchParams.get('preview') === 'true'`,
`previewLimit = isPreview ? 10 : totalLimit`, slice, then `mode` selects the
rendering. -/
def vacancyGetResponse (mode : String) (previewParam : Option String)
    (totalLimit : Nat) (allItems : List VacancyItem) : VacancyResponse :=
  let isPreview := previewParam == some "true"
  let previewLimit := if isPreview then 10 else totalLimit
  let sliced := allItems.take previewLimit
  if mode == "preview" then .json sliced else .csv sliced

/-- Item list carried by a vacancy response. -/
def VacancyResponse.items : VacancyResponse → List VacancyItem
  | .json l => l
  | .csv l => l

/-! ## Theorems: enrichment (C1) and the cap invariant (C5) -/

/-- The batch loop enriches exactly the items of some prefix of the batch
list; the whole list when the deadline never trips. -/
theorem enrichBatches_take (details : String → Option Details) (timeUp : Nat → Bool) :
    ∀ (bs : List (List Resume)) (b : Nat),
      ∃ k, k ≤ bs.length ∧
        enrichBatches details timeUp b bs = ((bs.take k).flatten).map (enrichOne details) ∧
        ((∀ i, timeUp i = false) → k = bs.length) := by
  intro bs
  induction bs with
  | nil => intro b; exact ⟨0, le_rfl, rfl, fun _ => rfl⟩
  | cons batch rest ih =>
    intro b
    cases hb : timeUp b with
    | true =>
      refine ⟨0, Nat.zero_le _, by simp [enrichBatches, hb], fun hall => ?_⟩
      exact absurd (hall b) (by simp [hb])
    | false =>
      obtain ⟨k, hk, hout, hall⟩ := ih (b + 1)
      refine ⟨k + 1, Nat.succ_le_succ hk, ?_, fun h => by rw [hall h]; rfl⟩
      simp [enrichBatches, hb, hout, List.take_succ_cons, List.flatten_cons]

/-- Batches flatten back to the item list when fuel is sufficient. -/
theorem toBatches_flatten :
    ∀ (fuel : Nat) (l : List Resume), l.length ≤ fuel → (toBatches fuel l).flatten = l := by
  intro fuel
  induction fuel with
  | zero =>
    intro l h
    have hl : l = [] := List.eq_nil_of_length_eq_zero (Nat.le_zero.mp h)
    subst hl; rfl
  | succ n ih =>
    intro l h
    cases l with
    | nil => rfl
    | cons c cs =>
      show ((c :: cs).take BATCH_SIZE :: toBatches n ((c :: cs).drop BATCH_SIZE)).flatten = c :: cs
      rw [List.flatten_cons,
        ih _ (by rw [List.length_drop]; simp only [List.length_cons] at h ⊢; simp [BATCH_SIZE]; omega)]
      exact List.take_append_drop _ _

/-- C1 counterexample: with the deadline already exceeded before the first
batch, the enricher returns the empty list, dropping its (non-empty) input
rather than passing unenriched items through. -/
theorem c1_counterexample :
    enrichLoop (fun _ => none) (fun _ => true) [⟨"1", [], none, none⟩] = [] ∧
    ¬ ((enrichLoop (fun _ => none) (fun _ => true) [⟨"1", [], none, none⟩]).map Resume.id
        = [Resume.mk "1" [] none none].map Resume.id) :=
  ⟨rfl, by decide⟩

/-- C1 amended: the enricher returns the enrichment of some prefix of its
input — each processed item passes through (enriched, or unchanged when its
detail fetch failed), and if the deadline is never exceeded the prefix is the
whole input; but items after a deadline-exceeded batch boundary are dropped,
not passed through. -/
theorem c1_enricher_prefix (details : String → Option Details) (timeUp : Nat → Bool)
    (items : List Resume) :
    ∃ n, n ≤ items.length ∧
      enrichLoop details timeUp items = (items.take n).map (enrichOne details) ∧
      ((∀ b, timeUp b = false) → n = items.length) := by
  obtain ⟨k, hk, hout, hall⟩ := enrichBatches_take details timeUp (toBatches items.length items) 0
  have hfl : (toBatches items.length items).flatten = items := toBatches_flatten _ _ le_rfl
  have hpre : ((toBatches items.length items).take k).flatten <+: items := by
    conv_rhs => rw [← hfl]
    exact ⟨((toBatches items.length items).drop k).flatten,
      by rw [← List.flatten_append, List.take_append_drop]⟩
  have hn : ((toBatches items.length items).take k).flatten
      = items.take (((toBatches items.length items).take k).flatten).length :=
    List.prefix_iff_eq_take.mp hpre
  refine ⟨(((toBatches items.length items).take k).flatten).length, hpre.length_le, ?_, ?_⟩
  · show enrichBatches details timeUp 0 (toBatches items.length items) = _
    rw [hout, ← hn]
  · intro h
    rw [hall h, List.take_length, hfl]

/-- Witness for C1 amended at a concrete input. -/
theorem c1_enricher_prefix_witness :
    ∃ n, n ≤ ([⟨"1", [], none, none⟩] : List Resume).length ∧
      enrichLoop (fun _ => none) (fun _ => false) [⟨"1", [], none, none⟩]
        = (([⟨"1", [], none, none⟩] : List Resume).take n).map (enrichOne (fun _ => none)) ∧
      ((∀ b, (fun _ => false : Nat → Bool) b = false) → n = ([⟨"1", [], none, none⟩] : List Resume).length) :=
  c1_enricher_prefix (fun _ => none) (fun _ => false) [⟨"1", [], none, none⟩]

/-- The enricher never lengthens the list. -/
theorem enrichLoop_length_le (details : String → Option Details) (timeUp : Nat → Bool)
    (items : List Resume) : (enrichLoop details timeUp items).length ≤ items.length := by
  obtain ⟨k, hk, hout, _⟩ := enrichBatches_take details timeUp (toBatches items.length items) 0
  have hfl : (toBatches items.length items).flatten = items := toBatches_flatten _ _ le_rfl
  have hpre : ((toBatches items.length items).take k).flatten <+: items := by
    conv_rhs => rw [← hfl]
    exact ⟨((toBatches items.length items).drop k).flatten,
      by rw [← List.flatten_append, List.take_append_drop]⟩
  calc (enrichLoop details timeUp items).length
      = (((toBatches items.length items).take k).flatten).length := by
        show (enrichBatches details timeUp 0 (toBatches items.length items)).length = _
        rw [hout, List.length_map]
    _ ≤ items.length := hpre.length_le

/-- C5: for every upstream behaviour, company list, query text and cap, the
item list produced by the run (both the enriched `fetchResumes` result and
the GET handler's `limitedItems` slice of it) has length at most the cap. -/
theorem c5_result_capped (env : Env) (now : JsDate) (searchText : String)
    (totalLimit : Nat) (companies : List String) (mode : String) :
    (fetchResumes env now searchText totalLimit companies).length ≤ totalLimit ∧
    (resumeGetLimitedItems env now searchText totalLimit companies mode).length ≤ totalLimit := by
  have h1 : (fetchResumes env now searchText totalLimit companies).length ≤ totalLimit := by
    calc (fetchResumes env now searchText totalLimit companies).length
        ≤ ((collectCompanies env now totalLimit 0 [] companies).take totalLimit).length :=
          enrichLoop_length_le _ _ _
      _ ≤ totalLimit := List.length_take_le _ _
  refine ⟨h1, ?_⟩
  calc (resumeGetLimitedItems env now searchText totalLimit companies mode).length
      ≤ (fetchResumes env now searchText totalLimit companies).length :=
        (List.take_prefix _ _).length_le
    _ ≤ totalLimit := h1

/-! ## Theorems: the retry policy (C7) -/

/-- C7: on any sequence of attempt outcomes, `fetchResumeDetails` waits at
most `MAX_RETRIES` extra attempts, with linearly increasing delays (a prefix
of 1000ms, 2000ms), and a `null` (exhausted/failed) result makes the
enricher keep the item unchanged and continue. -/
theorem c7_retry_policy (attempt : Nat → AttemptResult) :
    (fetchResumeDetails attempt).2 <+: [1000, 2000] ∧
    (fetchResumeDetails attempt).2.length ≤ MAX_RETRIES ∧
    (∀ (dets : String → Option Details) (item : Resume),
      dets item.id = none → enrichOne dets item = item) := by
  refine ⟨?_, ?_, fun dets item h => by simp [enrichOne, h]⟩ <;>
  · cases h0 : attempt 0 <;> cases h1 : attempt 1 <;> cases h2 : attempt 2 <;>
      simp [fetchResumeDetails, fetchDetailsGo, h0, h1, h2, MAX_RETRIES]

/-- Witness for C7: all attempts rate-limited, and a failed detail result on
a concrete item. -/
theorem c7_retry_policy_witness :
    (fetchResumeDetails (fun _ => AttemptResult.rate429)).2 <+: [1000, 2000] ∧
    (fetchResumeDetails (fun _ => AttemptResult.rate429)).2.length ≤ MAX_RETRIES ∧
    enrichOne (fun _ => none) ⟨"1", [], none, none⟩ = ⟨"1", [], none, none⟩ :=
  ⟨(c7_retry_policy (fun _ => AttemptResult.rate429)).1,
   (c7_retry_policy (fun _ => AttemptResult.rate429)).2.1,
   (c7_retry_policy (fun _ => AttemptResult.rate429)).2.2 (fun _ => none) ⟨"1", [], none, none⟩ rfl⟩

/-! ## Theorems: the vacancy preview truncation (C9) -/

/-- C9: the 10-item truncation of the vacancy endpoint is controlled solely
by the `preview` query parameter being the string `true`: without it, a
request with `mode = preview` gets up to `totalLimit` items as JSON; with
it, at most 10 items are returned whatever `mode` is. -/
theorem c9_preview_param_truncation (previewParam : Option String) (totalLimit : Nat)
    (allItems : List VacancyItem) :
    (previewParam ≠ some "true" →
      vacancyGetResponse "preview" previewParam totalLimit allItems
        = VacancyResponse.json (allItems.take totalLimit)) ∧
    (∀ mode, previewParam = some "true" →
      (vacancyGetResponse mode previewParam totalLimit allItems).items.length ≤ 10) := by
  constructor
  · intro h
    have hb : (previewParam == some "true") = false := beq_eq_false_iff_ne.mpr h
    simp [vacancyGetResponse, hb]
  · intro mode h
    subst h
    by_cases hm : (mode == "preview") = true <;>
      simp [vacancyGetResponse, hm, VacancyResponse.items, List.length_take_le]

/-- A concrete list of more than ten vacancy items. -/
def elevenVacancies : List VacancyItem :=
  (List.range 11).map (fun i => ⟨toString i⟩)

/-- Witness for C9 at concrete inputs (11 items, `totalLimit = 11`). -/
theorem c9_preview_param_truncation_witness :
    vacancyGetResponse "preview" none 11 elevenVacancies
      = VacancyResponse.json (elevenVacancies.take 11) ∧
    (vacancyGetResponse "full" (some "true") 11 elevenVacancies).items.length ≤ 10 :=
  ⟨(c9_preview_param_truncation none 11 elevenVacancies).1 (by decide),
   (c9_preview_param_truncation (some "true") 11 elevenVacancies).2 "full" rfl⟩

/-! ## Theorems: page failure yields partial results (C8) -/

/-- The filtered items a page contributes (none for an error page). -/
def pageItemsFiltered (pageOf : Nat → PageResult) (keep : Resume → Bool) (q : Nat) : List Resume :=
  match pageOf q with
  | .ok items _ => items.filter keep
  | .err => []

/-- All filtered items of the pages before `p`, in page order. -/
def collectedBefore (pageOf : Nat → PageResult) (keep : Resume → Bool) (p : Nat) : List Resume :=
  ((List.range p).map (pageItemsFiltered pageOf keep)).flatten

theorem collectedBefore_succ (pageOf : Nat → PageResult) (keep : Resume → Bool) (q : Nat) :
    collectedBefore pageOf keep (q + 1)
      = collectedBefore pageOf keep q ++ pageItemsFiltered pageOf keep q := by
  unfold collectedBefore
  rw [List.range_succ, List.map_append, List.flatten_append]
  simp

/-- Run of the pagination loop from page `j` with the previous pages'
items accumulated: on reaching the failing page `p` it stops with exactly
the pages-before-`p` accumulation. -/
theorem collectPages_err_from (pageOf : Nat → PageResult) (timeUp : Nat → Bool)
    (keep : Resume → Bool) (p : Nat)
    (Hok : ∀ q, q < p → ∃ its fnd, pageOf q = PageResult.ok its fnd ∧
      its.isEmpty = false ∧ q * ITEMS_PER_PAGE < fnd)
    (Htime : ∀ q, q ≤ p → timeUp q = false)
    (Hcap : ∀ q, q ≤ p →
      (collectedBefore pageOf keep q).length < MAX_RESULTS_PER_COMPANY)
    (Herr : pageOf p = PageResult.err) :
    ∀ (fuel j : Nat), j ≤ p → p - j < fuel →
      collectPages pageOf timeUp keep fuel j (collectedBefore pageOf keep j)
        = collectedBefore pageOf keep p := by
  intro fuel
  induction fuel with
  | zero => intro j hj hf; omega
  | succ f ih =>
    intro j hj hf
    have ht : timeUp j = false := Htime j hj
    have hc : (decide (MAX_RESULTS_PER_COMPANY ≤ (collectedBefore pageOf keep j).length)) = false := by
      have := Hcap j hj
      simp only [decide_eq_false_iff_not]
      omega
    rcases Nat.lt_or_ge j p with hjp | hjp
    · obtain ⟨its, fnd, hq, hne, hfnd⟩ := Hok j hjp
      have hfound : (decide (fnd ≤ j * ITEMS_PER_PAGE)) = false := by
        simp only [decide_eq_false_iff_not]
        omega
      show collectPages pageOf timeUp keep (f + 1) j (collectedBefore pageOf keep j) = _
      rw [collectPages, ht, hc]
      simp only [Bool.or_self, Bool.false_or, if_false]
      rw [hq]
      simp only [hne, hfound, if_false, Bool.false_eq_true]
      have hstep : collectedBefore pageOf keep j ++ List.filter keep its
          = collectedBefore pageOf keep (j + 1) := by
        rw [collectedBefore_succ]
        congr 1
        simp [pageItemsFiltered, hq]
      rw [hstep]
      exact ih (j + 1) (by omega) (by omega)
    · have hjq : j = p := Nat.le_antisymm hj hjp
      subst hjq
      show collectPages pageOf timeUp keep (f + 1) j (collectedBefore pageOf keep j) = _
      rw [collectPages, ht, hc, Herr]
      simp

/-- C8: (a) if a page request of the collector fails at page `p` (all
earlier pages succeeded and no other stop condition triggered), collection
for that company stops there and returns exactly the items accumulated from
the earlier pages — never discarding them, and returning a value rather than
propagating an exception; (b) the company loop then continues with the
remaining companies, appending whatever the failed company's collector
returned. -/
theorem c8_page_failure_partial :
    (∀ (pageOf : Nat → PageResult) (timeUp : Nat → Bool) (keep : Resume → Bool) (p fuel : Nat),
      (∀ q, q < p → ∃ its fnd, pageOf q = PageResult.ok its fnd ∧
        its.isEmpty = false ∧ q * ITEMS_PER_PAGE < fnd) →
      (∀ q, q ≤ p → timeUp q = false) →
      (∀ q, q ≤ p →
        (collectedBefore pageOf keep q).length < MAX_RESULTS_PER_COMPANY) →
      pageOf p = PageResult.err → p < fuel →
      collectPages pageOf timeUp keep fuel 0 [] = collectedBefore pageOf keep p) ∧
    (∀ (env : Env) (now : JsDate) (limit ci : Nat) (acc : List Resume)
        (company : String) (rest : List String),
      env.companyTime ci = false → acc.length < limit → cleanCompanyName company ≠ "" →
      collectCompanies env now limit ci acc (company :: rest)
        = collectCompanies env now limit (ci + 1)
            (acc ++ collectPages (env.page ci) (env.pageTime ci)
              (keepItem now (cleanCompanyName company)) (env.pageFuel ci) 0 []) rest) := by
  constructor
  · intro pageOf timeUp keep p fuel Hok Htime Hcap Herr Hfuel
    have h0 : collectedBefore pageOf keep 0 = [] := rfl
    have := collectPages_err_from pageOf timeUp keep p Hok Htime Hcap Herr fuel 0
      (Nat.zero_le p) (by omega)
    rw [h0] at this
    exact this
  · intro env now limit ci acc company rest h1 h2 h3
    have hb : (cleanCompanyName company == "") = false := beq_eq_false_iff_ne.mpr h3
    have hl : (decide (limit ≤ acc.length)) = false := by
      simp only [decide_eq_false_iff_not]; omega
    simp [collectCompanies, h1, hl, hb]

/-- Concrete page oracle for the C8 witness: two good pages, then an error. -/
def c8PageOf : Nat → PageResult :=
  fun q =>
    if q = 0 then PageResult.ok [⟨"r0", [⟨some "X1", none⟩], none, none⟩] 1000
    else if q = 1 then PageResult.ok [⟨"r1", [⟨some "X1", none⟩], none, none⟩] 1000
    else PageResult.err

/-- Concrete environment for the C8 witness. -/
def c8Env : Env :=
  ⟨fun _ => c8PageOf, fun _ => 5, fun _ => false, fun _ _ => false, fun _ => false,
   fun _ => none⟩

/-- Witness for C8: a failure on page 2 retains pages 0-1, and the company
loop proceeds to the rest of the list. -/
theorem c8_page_failure_partial_witness :
    collectPages c8PageOf (fun _ => false) (keepItem ⟨2024, 6, 1, 0⟩ (cleanCompanyName "X1")) 5 0 []
      = collectedBefore c8PageOf (keepItem ⟨2024, 6, 1, 0⟩ (cleanCompanyName "X1")) 2 ∧
    collectCompanies c8Env ⟨2024, 6, 1, 0⟩ 10 0 [] ["X1", "Y2"]
      = collectCompanies c8Env ⟨2024, 6, 1, 0⟩ 10 1
          ([] ++ collectPages (c8Env.page 0) (c8Env.pageTime 0)
            (keepItem ⟨2024, 6, 1, 0⟩ (cleanCompanyName "X1")) (c8Env.pageFuel 0) 0 []) ["Y2"] := by
  constructor
  · refine c8_page_failure_partial.1 c8PageOf (fun _ => false)
      (keepItem ⟨2024, 6, 1, 0⟩ (cleanCompanyName "X1")) 2 5 ?_ ?_ ?_ rfl (by omega)
    · intro q hq
      interval_cases q
      · exact ⟨[⟨"r0", [⟨some "X1", none⟩], none, none⟩], 1000, rfl, rfl, by decide⟩
      · exact ⟨[⟨"r1", [⟨some "X1", none⟩], none, none⟩], 1000, rfl, rfl, by decide⟩
    · intro q hq; rfl
    · intro q hq
      interval_cases q <;> decide
  · exact c8_page_failure_partial.2 c8Env ⟨2024, 6, 1, 0⟩ 10 0 [] "X1" ["Y2"] rfl
      (by decide) (by decide)

/-! ## Idempotence of the normalizer (C6)

The proof follows the pipeline: each stage's output is invariant under a
second run of every earlier-or-equal stage.  The delicate part is the word
removal: a `\b`-delimited match of one of the (all-Cyrillic) filler words
requires an ASCII word character immediately on both sides, so removal can
only ever glue two ASCII word characters together and can neither create a
new occurrence of a filler word nor change the neighbours of an existing
one; whitespace collapsing and trimming also cannot.  This is formalised
through the predicate `FlankOccC` below. -/

theorem toNat_ofNat_of_lt {n : Nat} (h : n < 0xd800) : (Char.ofNat n).toNat = n := by
  unfold Char.ofNat
  split
  · rfl
  · exact absurd (Or.inl h) (by assumption)

/-- Value table of `toLowerCaseChar`. -/
theorem toLowerCaseChar_toNat (c : Char) :
    (toLowerCaseChar c).toNat =
      if 65 ≤ c.toNat ∧ c.toNat ≤ 90 then c.toNat + 32
      else if 0x410 ≤ c.toNat ∧ c.toNat ≤ 0x42f then c.toNat + 32
      else if c.toNat = 0x401 then 0x451
      else c.toNat := by
  unfold toLowerCaseChar
  split_ifs with h1 h2 h3 <;> first
    | rfl
    | exact toNat_ofNat_of_lt (by omega)

theorem char_eq_of_toNat_eq {a b : Char} (h : a.toNat = b.toNat) : a = b := by
  apply Char.ext
  exact UInt32.toNat.inj h

/-- Lowercasing is idempotent character by character. -/
theorem toLowerCaseChar_fixed (c : Char) :
    toLowerCaseChar (toLowerCaseChar c) = toLowerCaseChar c := by
  apply char_eq_of_toNat_eq
  rw [toLowerCaseChar_toNat (toLowerCaseChar c), toLowerCaseChar_toNat c]
  split_ifs <;> omega

/-- An ASCII word character is not whitespace. -/
theorem wordChar_not_space {c : Char} (h : isWordChar c = true) : isSpaceChar c = false := by
  have h1 := of_decide_eq_true h
  unfold isSpaceChar
  simp only [decide_eq_false_iff_not]
  omega

/-- A space character passes lowercasing unchanged. -/
theorem toLowerCaseChar_space : toLowerCaseChar ' ' = ' ' := by decide

theorem isQuoteChar_space : isQuoteChar ' ' = false := by decide

theorem isSpaceChar_space : isSpaceChar ' ' = true := by decide

/-- Characters of `collapseWs l` come from `l` or are the space character. -/
theorem mem_collapseWs : ∀ (l : List Char) (c : Char), c ∈ collapseWs l → c ∈ l ∨ c = ' ' := by
  intro l
  induction l with
  | nil => intro c hc; cases hc
  | cons c1 l' ih =>
    cases l' with
    | nil =>
      intro c hc
      by_cases hsp : isSpaceChar c1 = true
      · simp [collapseWs, hsp] at hc
        exact Or.inr hc
      · simp [collapseWs, hsp] at hc
        exact Or.inl (by simp [hc])
    | cons c2 rest =>
      intro c hc
      by_cases hb : (isSpaceChar c1 && isSpaceChar c2) = true
      · rw [show collapseWs (c1 :: c2 :: rest) = collapseWs (c2 :: rest) by
          rw [collapseWs, if_pos hb]] at hc
        rcases ih c hc with h | h
        · exact Or.inl (List.mem_cons_of_mem _ h)
        · exact Or.inr h
      · rw [show collapseWs (c1 :: c2 :: rest)
            = (if isSpaceChar c1 then ' ' else c1) :: collapseWs (c2 :: rest) by
          rw [collapseWs, if_neg hb]] at hc
        rcases List.mem_cons.mp hc with h | h
        · subst h
          by_cases hsp : isSpaceChar c1 = true
          · simp [hsp]
          · simp [hsp]
        · rcases ih c h with h2 | h2
          · exact Or.inl (List.mem_cons_of_mem _ h2)
          · exact Or.inr h2

/-- `trimChars` only drops characters. -/
theorem mem_trimChars (l : List Char) (c : Char) (hc : c ∈ trimChars l) : c ∈ l := by
  unfold trimChars at hc
  rw [List.mem_reverse] at hc
  have h1 := (List.dropWhile_suffix isSpaceChar).subset hc
  rw [List.mem_reverse] at h1
  exact (List.dropWhile_suffix isSpaceChar).subset h1

/-- A word as they appear in `removeWords`: non-empty, no ASCII word
characters, no whitespace. -/
def goodWord (w : List Char) : Prop :=
  w ≠ [] ∧ ∀ c ∈ w, isWordChar c = false ∧ isSpaceChar c = false

/-- The character immediately preceding the position after `a`, when the
scan entered `a` with preceding character `prev`. -/
def lastCtx (prev : Option Char) (a : List Char) : Option Char :=
  match a.getLast? with
  | some c => some c
  | none => prev

/-- A `\b`-delimited occurrence of `w` inside `t`, in context: either an
occurrence flanked by word characters on both sides within `t`, or an
occurrence at the very start of `t` whose left flank is the context
character `prev`. -/
def FlankOccC (prev : Option Char) (w t : List Char) : Prop :=
  (∃ x y, isWordChar x = true ∧ isWordChar y = true ∧ (x :: (w ++ [y])) <:+: t) ∨
  (isWordOpt prev = true ∧ ∃ y, isWordChar y = true ∧ (w ++ [y]) <+: t)

theorem lastCtx_cons (prev : Option Char) (c : Char) (a' : List Char) :
    lastCtx prev (c :: a') = lastCtx (some c) a' := by
  unfold lastCtx
  cases a' with
  | nil => rfl
  | cons x xs =>
    rw [List.getLast?_cons_cons, List.getLast?_eq_getLast (x :: xs) (by simp)]

theorem FlankOccC_nil {w : List Char} (hw : goodWord w) (prev : Option Char) :
    ¬ FlankOccC prev w [] := by
  rintro (⟨x, y, hx, hy, hinf⟩ | ⟨hp, y, hy, hpre⟩)
  · rw [List.infix_nil] at hinf
    exact absurd hinf (by simp)
  · rw [List.prefix_nil] at hpre
    rcases List.append_eq_nil.mp hpre with ⟨h1, h2⟩
    exact hw.1 h1

theorem goodWord_head {w : List Char} (hw : goodWord w) {h : Char} (hh : w.head? = some h) :
    isWordChar h = false := by
  cases w with
  | nil => cases hh
  | cons a w' =>
    cases hh
    exact (hw.2 _ (List.mem_cons_self _ _)).1

theorem goodWord_getLast {w : List Char} (hw : goodWord w) :
    ∃ l, w.getLast? = some l ∧ isWordChar l = false := by
  refine ⟨w.getLast hw.1, List.getLast?_eq_getLast w hw.1, ?_⟩
  exact (hw.2 _ (List.getLast_mem hw.1)).1

/-- Build a match from an occurrence with correct flanks. -/
theorem matchAt_of_parts {w : List Char} (hw : goodWord w) (prev : Option Char)
    {s t : List Char} {y : Char} (hs : s = w ++ y :: t)
    (hprev : isWordOpt prev = true) (hy : isWordChar y = true) :
    matchAt w prev s = true := by
  obtain ⟨l, hl, hlw⟩ := goodWord_getLast hw
  obtain ⟨h, hh⟩ : ∃ h, w.head? = some h := by
    cases w with
    | nil => exact absurd rfl hw.1
    | cons a w' => exact ⟨a, rfl⟩
  have hhw : isWordChar h = false := goodWord_head hw hh
  have hb1 : wordBoundary prev w.head? = true := by
    rw [hh]
    show (isWordOpt prev != isWordChar h) = true
    rw [hprev, hhw]
    rfl
  have hb2 : wordBoundary w.getLast? ((s.drop w.length).head?) = true := by
    rw [hl, hs, List.drop_left]
    show (isWordChar l != isWordChar y) = true
    rw [hlw, hy]
    rfl
  have hp : decide (w <+: s) = true := decide_eq_true (by rw [hs]; exact ⟨y :: t, rfl⟩)
  unfold matchAt
  rw [hp, hb1, hb2]
  rfl

/-- Unpack a match into an occurrence with word-character flanks. -/
theorem matchAt_parts {w : List Char} (hw : goodWord w) {prev : Option Char}
    {s : List Char} (h : matchAt w prev s = true) :
    ∃ y t, s = w ++ y :: t ∧ isWordOpt prev = true ∧ isWordChar y = true := by
  unfold matchAt at h
  rw [Bool.and_eq_true, Bool.and_eq_true] at h
  obtain ⟨⟨hpre, hb1⟩, hb2⟩ := h
  have hpre2 : w <+: s := of_decide_eq_true hpre
  obtain ⟨t0, ht0⟩ := hpre2
  obtain ⟨h0, hh0⟩ : ∃ h0, w.head? = some h0 := by
    cases w with
    | nil => exact absurd rfl hw.1
    | cons a w' => exact ⟨a, rfl⟩
  have hh0w : isWordChar h0 = false := goodWord_head hw hh0
  obtain ⟨l, hl, hlw⟩ := goodWord_getLast hw
  rw [hh0] at hb1
  rw [hl] at hb2
  have hprev : isWordOpt prev = true := by
    simp [wordBoundary, isWordOpt, hh0w] at hb1
    exact hb1
  have hdrop : s.drop w.length = t0 := by rw [← ht0]; exact List.drop_left w t0
  rw [hdrop] at hb2
  have ht0h : isWordOpt t0.head? = true := by
    simp [wordBoundary, isWordOpt, hlw] at hb2
    exact hb2
  cases t0 with
  | nil => simp [isWordOpt] at ht0h
  | cons y t =>
    exact ⟨y, t, by rw [← ht0], hprev, ht0h⟩

/-- Specification of a failed scan: no occurrence in context remains. -/
theorem findMatch_none {w : List Char} (hw : goodWord w) :
    ∀ (s : List Char) (prev : Option Char), findMatch w prev s = none →
      ¬ FlankOccC prev w s := by
  intro s
  induction s with
  | nil => intro prev _; exact FlankOccC_nil hw prev
  | cons c rest ih =>
    intro prev hfm
    have hma : matchAt w prev (c :: rest) = false := by
      by_contra hx
      rw [Bool.not_eq_false] at hx
      rw [findMatch, if_pos hx] at hfm
      cases hfm
    have hrest : findMatch w (some c) rest = none := by
      rw [findMatch, if_neg (by simp [hma])] at hfm
      exact Option.map_eq_none'.mp hfm
    have ihr := ih (some c) hrest
    rintro (⟨x, y, hx, hy, hinf⟩ | ⟨hp, y, hy, hpre⟩)
    · rcases List.infix_cons_iff.mp hinf with hpre2 | hinf2
      · -- occurrence right after the head: a match at the next position
        rcases List.cons_prefix_cons.mp hpre2 with ⟨hxc, hwy⟩
        obtain ⟨t, ht⟩ := hwy
        have : matchAt w (some c) rest = true := by
          refine matchAt_of_parts hw (some c) (by rw [← ht, List.append_assoc]; rfl) ?_ hy
          subst hxc
          simpa [isWordOpt] using hx
        cases rest with
        | nil =>
          have : w ++ [y] ++ t = [] := ht
          rcases List.append_eq_nil.mp (List.append_eq_nil.mp this).1 with ⟨h1, _⟩
          exact hw.1 h1
        | cons r1 rest' =>
          rw [findMatch, if_pos this] at hrest
          cases hrest
      · exact ihr (Or.inl ⟨x, y, hx, hy, hinf2⟩)
    · obtain ⟨t, ht⟩ := hpre
      have : matchAt w prev (c :: rest) = true :=
        matchAt_of_parts hw prev (by rw [← ht, List.append_assoc]; rfl) hp hy
      rw [this] at hma
      cases hma

/-- Specification of a successful scan: the string splits around the first
match; the flank before it (seen from the entry context) and the character
after it are word characters; and no earlier occurrence exists. -/
theorem findMatch_some {w : List Char} (hw : goodWord w) :
    ∀ (s : List Char) (prev : Option Char) (a b : List Char),
      findMatch w prev s = some (a, b) →
      s = a ++ w ++ b ∧ isWordOpt (lastCtx prev a) = true ∧ isWordOpt b.head? = true ∧
        ¬ FlankOccC prev w a := by
  intro s
  induction s with
  | nil => intro prev a b h; cases h
  | cons c rest ih =>
    intro prev a b hfm
    by_cases hma : matchAt w prev (c :: rest) = true
    · rw [findMatch, if_pos hma] at hfm
      obtain ⟨y, t, hst, hprev, hy⟩ := matchAt_parts hw hma
      obtain ⟨ha, hb⟩ := Prod.mk.inj (Option.some.inj hfm)
      have hdrop : (c :: rest).drop w.length = y :: t := by
        rw [hst, List.drop_left]
      refine ⟨?_, ?_, ?_, ?_⟩
      · rw [← ha, ← hb, hdrop, hst]; rfl
      · rw [← ha]; exact hprev
      · rw [← hb, hdrop]
        simpa [isWordOpt] using hy
      · rw [← ha]; exact FlankOccC_nil hw prev
    · rw [findMatch, if_neg hma] at hfm
      obtain ⟨⟨a', b'⟩, hfm2, hshift⟩ := Option.map_eq_some'.mp hfm
      obtain ⟨ha, hb⟩ := Prod.mk.inj hshift
      obtain ⟨hrest, hlast, hbh, hnoA⟩ := ih (some c) a' b' hfm2
      subst ha; subst hb
      refine ⟨by rw [hrest]; rfl, by rw [lastCtx_cons]; exact hlast, hbh, ?_⟩
      rintro (⟨x, y, hx, hy, hinf⟩ | ⟨hp, y, hy, hpre⟩)
      · rcases List.infix_cons_iff.mp hinf with hpre2 | hinf2
        · rcases List.cons_prefix_cons.mp hpre2 with ⟨hxc, hwy⟩
          refine hnoA (Or.inr ⟨?_, y, hy, hwy⟩)
          subst hxc
          simpa [isWordOpt] using hx
        · exact hnoA (Or.inl ⟨x, y, hx, hy, hinf2⟩)
      · have hpre3 : (w ++ [y]) <+: c :: rest := by
          refine hpre.trans ?_
          rw [hrest]
          exact ⟨w ++ b', by simp⟩
        obtain ⟨t2, ht2⟩ := hpre3
        have : matchAt w prev (c :: rest) = true :=
          matchAt_of_parts hw prev (by rw [← ht2, List.append_assoc]; rfl) hp hy
        exact hma this

/-- A prefix of an append is a prefix of the left part or extends it. -/
theorem prefix_append_split {α : Type} {z xs ys : List α} (h : z <+: xs ++ ys) :
    z <+: xs ∨ ∃ z₂, z = xs ++ z₂ ∧ z₂ <+: ys := by
  induction xs generalizing z with
  | nil => exact Or.inr ⟨z, rfl, h⟩
  | cons x xs' ih =>
    cases z with
    | nil => exact Or.inl List.nil_prefix
    | cons a z' =>
      rcases List.cons_prefix_cons.mp h with ⟨hax, hz'⟩
      subst hax
      rcases ih hz' with h2 | ⟨z₂, hz₂, hpre⟩
      · exact Or.inl (List.cons_prefix_cons.mpr ⟨rfl, h2⟩)
      · exact Or.inr ⟨z₂, by rw [hz₂]; rfl, hpre⟩

/-- An infix of an append is inside one part or splits across the seam. -/
theorem infix_append_split {α : Type} {z xs ys : List α} (h : z <:+: xs ++ ys) :
    z <:+: xs ∨ z <:+: ys ∨
      ∃ z₁ z₂, z = z₁ ++ z₂ ∧ z₁ ≠ [] ∧ z₂ ≠ [] ∧ z₁ <:+ xs ∧ z₂ <+: ys := by
  induction xs generalizing z with
  | nil => exact Or.inr (Or.inl h)
  | cons x xs' ih =>
    rcases List.infix_cons_iff.mp h with hpre | hinf
    · rcases @prefix_append_split _ z (x :: xs') ys hpre with h2 | ⟨z₂, hz₂, hpre2⟩
      · exact Or.inl h2.isInfix
      · by_cases hz2nil : z₂ = []
        · subst hz2nil
          rw [List.append_nil] at hz₂
          subst hz₂
          exact Or.inl (List.infix_refl _)
        · exact Or.inr (Or.inr ⟨x :: xs', z₂, hz₂, by simp, hz2nil,
            List.suffix_refl _, hpre2⟩)
    · rcases ih hinf with h2 | h2 | ⟨z₁, z₂, hz, hne1, hne2, hsuf, hpre2⟩
      · exact Or.inl (List.infix_cons_iff.mpr (Or.inr h2))
      · exact Or.inr (Or.inl h2)
      · exact Or.inr (Or.inr ⟨z₁, z₂, hz, hne1, hne2,
          (List.suffix_cons_iff.mpr (Or.inr hsuf)), hpre2⟩)

/-- If `w ++ [y] = u ++ bh :: v` with `bh` a word character and `w` a filler
word, the seam can only be at the very end: `u = w`, `bh = y`, `v = []`. -/
theorem word_append_seam {w : List Char} (hw : goodWord w) {y bh : Char} {u v : List Char}
    (hbh : isWordChar bh = true) (he : w ++ [y] = u ++ bh :: v) :
    u = w ∧ bh = y ∧ v = [] := by
  have hlen : w.length + 1 = u.length + (v.length + 1) := by
    have := congrArg List.length he
    simpa using this
  rcases Nat.lt_or_ge u.length w.length with hlt | hge
  · -- bh would be a character of w
    exfalso
    have hdrop : (w ++ [y]).drop u.length = bh :: v := by rw [he, List.drop_left]
    rw [List.drop_append_of_le_length (Nat.le_of_lt hlt)] at hdrop
    have hne : w.drop u.length ≠ [] := by
      intro hnil
      have := congrArg List.length hnil
      rw [List.length_drop] at this
      simp at this
      omega
    cases hd : w.drop u.length with
    | nil => exact hne hd
    | cons d0 d' =>
      rw [hd] at hdrop
      have hd0bh : d0 = bh := by
        have := congrArg List.head? hdrop
        simpa using this
      have hmem : d0 ∈ w :=
        (List.drop_subset u.length w) (by rw [hd]; exact List.mem_cons_self _ _)
      have hnw : isWordChar d0 = false := (hw.2 _ hmem).1
      rw [hd0bh, hbh] at hnw
      cases hnw
  · have hule : u.length = w.length := by omega
    obtain ⟨hu, hrest⟩ := List.append_inj he.symm hule
    have hy : bh = y := by
      have := congrArg List.head? hrest
      simpa using this
    have hv : v = [] := by
      have hlv : v.length = 0 := by
        have := congrArg List.length hrest
        simpa using this
      exact List.eq_nil_of_length_eq_zero hlv
    exact ⟨hu, hy, hv⟩

/-- Occurrences persist when text is appended on the right. -/
theorem FlankOccC_append_right {prev : Option Char} {w a : List Char} (z : List Char)
    (h : FlankOccC prev w a) : FlankOccC prev w (a ++ z) := by
  rcases h with ⟨x, y, hx, hy, hinf⟩ | ⟨hp, y, hy, hpre⟩
  · exact Or.inl ⟨x, y, hx, hy, hinf.trans ((List.prefix_append a z).isInfix)⟩
  · exact Or.inr ⟨hp, y, hy, hpre.trans (List.prefix_append a z)⟩

/-- An occurrence after a word-character seam persists in the whole text. -/
theorem FlankOccC_append_left {prev : Option Char} {w b' : List Char} {bh : Char}
    (z : List Char) (hbh : isWordChar bh = true)
    (h : FlankOccC (some bh) w b') : FlankOccC prev w (z ++ bh :: b') := by
  rcases h with ⟨x, y, hx, hy, hinf⟩ | ⟨hp, y, hy, hpre⟩
  · refine Or.inl ⟨x, y, hx, hy, hinf.trans ?_⟩
    exact ((List.suffix_cons bh b').trans (List.suffix_append z (bh :: b'))).isInfix
  · refine Or.inl ⟨bh, y, hbh, hy, ?_⟩
    have h1 : bh :: (w ++ [y]) <+: bh :: b' := List.cons_prefix_cons.mpr ⟨rfl, hpre⟩
    exact List.infix_iff_prefix_suffix.mpr ⟨bh :: b', h1, List.suffix_append z (bh :: b')⟩

/-- The key gluing step: removing one flanked occurrence (leaving `a`,
glued by the word character `bh` to the processed remainder `g`) cannot
create a new occurrence: any occurrence in `a ++ bh :: g` would lie in `a`,
lie in `bh :: g`, or straddle the seam — and a straddling occurrence would
force a word character inside the filler word or a filler-word character at
the position of the (word character) flank. -/
theorem FlankOccC_glue {w : List Char} (hw : goodWord w) {prev : Option Char}
    {a g : List Char} {bh : Char}
    (hlast : isWordOpt (lastCtx prev a) = true) (hbh : isWordChar bh = true)
    (hA : ¬ FlankOccC prev w a) (hG : ¬ FlankOccC (some bh) w g) :
    ¬ FlankOccC prev w (a ++ bh :: g) := by
  obtain ⟨l, hl, hlw⟩ := goodWord_getLast hw
  rintro (⟨x, y, hx, hy, hinf⟩ | ⟨hp, y, hy, hpre⟩)
  · rcases infix_append_split hinf with h1 | h1 | ⟨z₁, z₂, hz, hne1, hne2, hsuf, hpre2⟩
    · exact hA (Or.inl ⟨x, y, hx, hy, h1⟩)
    · rcases List.infix_cons_iff.mp h1 with h2 | h2
      · rcases List.cons_prefix_cons.mp h2 with ⟨hxbh, hwy⟩
        exact hG (Or.inr ⟨by simpa [isWordOpt] using hbh, y, hy, hwy⟩)
      · exact hG (Or.inl ⟨x, y, hx, hy, h2⟩)
    · cases z₁ with
      | nil => exact hne1 rfl
      | cons x0 z₁' =>
        have hwz : w ++ [y] = z₁' ++ z₂ := by
          have := congrArg List.tail hz
          simpa using this
        cases z₂ with
        | nil => exact hne2 rfl
        | cons b0 z₂'' =>
          rcases List.cons_prefix_cons.mp hpre2 with ⟨hb0, hz₂''⟩
          subst hb0
          obtain ⟨hz₁w, hbhy, hz₂nil⟩ := word_append_seam hw hbh hwz
          obtain ⟨t, ht⟩ := hsuf
          have h3 : (x0 :: w).getLast? = some l := by
            rw [show x0 :: w = [x0] ++ w from rfl, List.getLast?_append, hl]
            rfl
          have hga : a.getLast? = some l := by
            rw [← ht, List.getLast?_append, hz₁w, h3]
            rfl
          have h4 : lastCtx prev a = some l := by unfold lastCtx; rw [hga]
          rw [h4] at hlast
          rw [show isWordOpt (some l) = isWordChar l from rfl, hlw] at hlast
          cases hlast
  · rcases prefix_append_split hpre with h1 | ⟨z₂, hz₂, hpre2⟩
    · exact hA (Or.inr ⟨hp, y, hy, h1⟩)
    · cases z₂ with
      | nil =>
        rw [List.append_nil] at hz₂
        refine hA (Or.inr ⟨hp, y, hy, ?_⟩)
        rw [← hz₂]
      | cons b0 z₂'' =>
        rcases List.cons_prefix_cons.mp hpre2 with ⟨hb0, _⟩
        subst hb0
        obtain ⟨haw, hbhy, hz₂nil⟩ := word_append_seam hw hbh hz₂
        have h4 : lastCtx prev a = some l := by
          unfold lastCtx
          rw [haw, hl]
        rw [h4] at hlast
        rw [show isWordOpt (some l) = isWordChar l from rfl, hlw] at hlast
        cases hlast

/-- Directly after a removed occurrence the scan cannot match again
(both sides of the leading boundary are non-word characters). -/
theorem matchAt_after_word {u : List Char} (hu : goodWord u) (s : List Char) :
    matchAt u u.getLast? s = false := by
  obtain ⟨l, hl, hlw⟩ := goodWord_getLast hu
  obtain ⟨h0, hh0⟩ : ∃ h0, u.head? = some h0 := by
    cases u with
    | nil => exact absurd rfl hu.1
    | cons aa ww => exact ⟨aa, rfl⟩
  have hh0w := goodWord_head hu hh0
  unfold matchAt
  rw [hl, hh0]
  rw [show wordBoundary (some l) (some h0) = (isWordChar l != isWordChar h0) from rfl,
    hlw, hh0w]
  simp

/-- One scan step with no match at the head commutes with `cons`. -/
theorem replaceWordGo_cons {w : List Char} (f : Nat) (prev : Option Char) (c : Char)
    (rest : List Char) (hma : matchAt w prev (c :: rest) = false) :
    replaceWordGo w (f + 1) prev (c :: rest) = c :: replaceWordGo w (f + 1) (some c) rest := by
  have hfm1 : findMatch w prev (c :: rest)
      = (findMatch w (some c) rest).map (fun p => (c :: p.1, p.2)) := by
    rw [findMatch, if_neg (by simp [hma])]
  cases hfm : findMatch w (some c) rest with
  | none =>
    simp only [replaceWordGo, hfm1, hfm, Option.map_none']
  | some p =>
    obtain ⟨a', b'⟩ := p
    simp only [replaceWordGo, hfm1, hfm, Option.map_some', List.cons_append]

/-- After a full scan no occurrence of the scanned word remains. -/
theorem replaceWordGo_self {w : List Char} (hw : goodWord w) :
    ∀ (fuel : Nat) (prev : Option Char) (s : List Char), s.length ≤ fuel →
      ¬ FlankOccC prev w (replaceWordGo w fuel prev s) := by
  intro fuel
  induction fuel with
  | zero =>
    intro prev s hf
    have hs : s = [] := List.eq_nil_of_length_eq_zero (Nat.le_zero.mp hf)
    subst hs
    exact FlankOccC_nil hw prev
  | succ F ih =>
    intro prev s hf
    cases hfm : findMatch w prev s with
    | none =>
      rw [show replaceWordGo w (F + 1) prev s = s by rw [replaceWordGo, hfm]]
      exact findMatch_none hw s prev hfm
    | some p =>
      obtain ⟨a, b⟩ := p
      obtain ⟨hs, hlast, hbh, hnoA⟩ := findMatch_some hw s prev a b hfm
      have hout : replaceWordGo w (F + 1) prev s
          = a ++ replaceWordGo w F w.getLast? b := by
        rw [replaceWordGo, hfm]
      cases b with
      | nil => simp [isWordOpt] at hbh
      | cons bh b' =>
        have hbhw : isWordChar bh = true := by simpa [isWordOpt] using hbh
        have hw1 : 1 ≤ w.length := by
          cases w with
          | nil => exact absurd rfl hw.1
          | cons x xs => simp
        have hlen : (bh :: b').length ≤ F := by
          have hsl := congrArg List.length hs
          simp [List.length_append] at hsl
          simp only [List.length_cons]
          omega
        cases F with
        | zero => simp at hlen
        | succ F2 =>
          rw [hout, replaceWordGo_cons F2 w.getLast? bh b' (matchAt_after_word hw _)]
          refine FlankOccC_glue hw hlast hbhw hnoA ?_
          exact ih (some bh) b' (by simp only [List.length_cons] at hlen; omega)

/-- A full scan of `u` preserves absence of occurrences of `w`. -/
theorem replaceWordGo_preserves {w u : List Char} (hw : goodWord w) (hu : goodWord u) :
    ∀ (fuel : Nat) (prev : Option Char) (s : List Char), s.length ≤ fuel →
      ¬ FlankOccC prev w s → ¬ FlankOccC prev w (replaceWordGo u fuel prev s) := by
  intro fuel
  induction fuel with
  | zero => intro prev s hf hno; exact hno
  | succ F ih =>
    intro prev s hf hno
    cases hfm : findMatch u prev s with
    | none =>
      rw [show replaceWordGo u (F + 1) prev s = s by rw [replaceWordGo, hfm]]
      exact hno
    | some p =>
      obtain ⟨a, b⟩ := p
      obtain ⟨hs, hlast, hbh, _⟩ := findMatch_some hu s prev a b hfm
      have hout : replaceWordGo u (F + 1) prev s
          = a ++ replaceWordGo u F u.getLast? b := by
        rw [replaceWordGo, hfm]
      cases b with
      | nil => simp [isWordOpt] at hbh
      | cons bh b' =>
        have hbhw : isWordChar bh = true := by simpa [isWordOpt] using hbh
        have hu1 : 1 ≤ u.length := by
          cases u with
          | nil => exact absurd rfl hu.1
          | cons x xs => simp
        have hlen : (bh :: b').length ≤ F := by
          have hsl := congrArg List.length hs
          simp [List.length_append] at hsl
          simp only [List.length_cons]
          omega
        have hnoA : ¬ FlankOccC prev w a := by
          intro hocc
          apply hno
          rw [hs, List.append_assoc]
          exact FlankOccC_append_right _ hocc
        have hnoB : ¬ FlankOccC (some bh) w b' := by
          intro hocc
          apply hno
          rw [hs]
          exact FlankOccC_append_left _ hbhw hocc
        cases F with
        | zero => simp at hlen
        | succ F2 =>
          rw [hout, replaceWordGo_cons F2 u.getLast? bh b' (matchAt_after_word hu _)]
          refine FlankOccC_glue hw hlast hbhw hnoA ?_
          exact ih (some bh) b' (by simp only [List.length_cons] at hlen; omega) hnoB

/-- A successful scan exhibits an occurrence in context. -/
theorem FlankOccC_of_findMatch_some {w : List Char} (hw : goodWord w) {prev : Option Char}
    {s a b : List Char} (h : findMatch w prev s = some (a, b)) : FlankOccC prev w s := by
  obtain ⟨hs, hlast, hbh, _⟩ := findMatch_some hw s prev a b h
  cases b with
  | nil => simp [isWordOpt] at hbh
  | cons bh b' =>
    have hbhw : isWordChar bh = true := by simpa [isWordOpt] using hbh
    cases ha : a.getLast? with
    | none =>
      have hanil : a = [] := by
        cases a with
        | nil => rfl
        | cons x xs => rw [List.getLast?_eq_getLast _ (by simp)] at ha; cases ha
      subst hanil
      have hp : isWordOpt prev = true := by
        unfold lastCtx at hlast
        simpa using hlast
      refine Or.inr ⟨hp, bh, hbhw, ?_⟩
      rw [hs]
      exact ⟨b', by simp⟩
    | some x =>
      have hxw : isWordChar x = true := by
        unfold lastCtx at hlast
        rw [ha] at hlast
        simpa [isWordOpt] using hlast
      have hadl : a.dropLast ++ [x] = a :=
        List.dropLast_append_getLast? x (by rw [ha]; rfl)
      refine Or.inl ⟨x, bh, hxw, hbhw, a.dropLast, b', ?_⟩
      rw [hs, ← hadl]
      simp

/-- A fuelled scan with no match is the identity. -/
theorem replaceWordGo_of_none {w : List Char} {prev : Option Char} {s : List Char}
    (h : findMatch w prev s = none) : ∀ fuel, replaceWordGo w fuel prev s = s := by
  intro fuel
  cases fuel with
  | zero => rfl
  | succ f => rw [replaceWordGo, h]

/-- If no occurrence is present, the replacement is the identity. -/
theorem replaceWord_of_noOcc {w : List Char} (hw : goodWord w) {s : List Char}
    (h : ¬ FlankOccC none w s) : replaceWord w s = s := by
  unfold replaceWord
  cases hfm : findMatch w none s with
  | none => exact replaceWordGo_of_none hfm _
  | some p =>
    obtain ⟨a, b⟩ := p
    exact absurd (FlankOccC_of_findMatch_some hw hfm) h

/-- The concrete vocabulary consists of good words. -/
theorem removeWords_good : ∀ w ∈ removeWords, goodWord w := by
  unfold goodWord
  decide

/-- Absence of occurrences of `w` survives a whole word-removal pass. -/
theorem foldl_replaceWord_preserves {w : List Char} (hw : goodWord w) :
    ∀ (ws : List (List Char)) (s : List Char), (∀ u ∈ ws, goodWord u) →
      ¬ FlankOccC none w s →
      ¬ FlankOccC none w (ws.foldl (fun acc u => replaceWord u acc) s) := by
  intro ws
  induction ws with
  | nil => intro s _ h; exact h
  | cons u ws' ih =>
    intro s hgood h
    simp only [List.foldl_cons]
    exact ih _ (fun v hv => hgood v (List.mem_cons_of_mem _ hv))
      (replaceWordGo_preserves hw (hgood u (List.mem_cons_self _ _)) s.length none s
        le_rfl h)

/-- After the whole pass, no processed word has an occurrence left. -/
theorem foldl_replaceWord_noOcc :
    ∀ (ws : List (List Char)) (s : List Char), (∀ u ∈ ws, goodWord u) →
      ∀ w ∈ ws, ¬ FlankOccC none w (ws.foldl (fun acc u => replaceWord u acc) s) := by
  intro ws
  induction ws with
  | nil => intro s _ w hw; cases hw
  | cons u ws' ih =>
    intro s hgood w hwmem
    simp only [List.foldl_cons]
    rcases List.mem_cons.mp hwmem with rfl | hmem
    · exact foldl_replaceWord_preserves (hgood _ (List.mem_cons_self _ _)) ws' _
        (fun v hv => hgood v (List.mem_cons_of_mem _ hv))
        (replaceWordGo_self (hgood _ (List.mem_cons_self _ _)) s.length none s le_rfl)
    · exact ih _ (fun v hv => hgood v (List.mem_cons_of_mem _ hv)) w hmem

/-- The pass is the identity when nothing matches any of its words. -/
theorem foldl_replaceWord_fix :
    ∀ (ws : List (List Char)) (s : List Char),
      (∀ u ∈ ws, goodWord u) → (∀ u ∈ ws, ¬ FlankOccC none u s) →
      ws.foldl (fun acc u => replaceWord u acc) s = s := by
  intro ws
  induction ws with
  | nil => intro s _ _; rfl
  | cons u ws' ih =>
    intro s hgood hno
    simp only [List.foldl_cons]
    rw [replaceWord_of_noOcc (hgood u (List.mem_cons_self _ _)) (hno u (List.mem_cons_self _ _))]
    exact ih s (fun v hv => hgood v (List.mem_cons_of_mem _ hv))
      (fun v hv => hno v (List.mem_cons_of_mem _ hv))

/-! ### Whitespace collapsing and trimming preserve occurrence-freeness -/

theorem collapseWs_nil_eq : collapseWs [] = [] := rfl

theorem collapseWs_singleton (c : Char) :
    collapseWs [c] = [if isSpaceChar c then ' ' else c] := rfl

theorem collapseWs_cons₂ (c1 c2 : Char) (rest : List Char) :
    collapseWs (c1 :: c2 :: rest) =
      if isSpaceChar c1 && isSpaceChar c2 then collapseWs (c2 :: rest)
      else (if isSpaceChar c1 then ' ' else c1) :: collapseWs (c2 :: rest) := rfl

/-- A collapsed list beginning with whitespace starts with the space char. -/
theorem collapseWs_head_space :
    ∀ (r : List Char) (c : Char), isSpaceChar c = true →
      (collapseWs (c :: r)).head? = some ' ' := by
  intro r
  induction r with
  | nil => intro c hc; rw [collapseWs_singleton, if_pos hc]; rfl
  | cons c2 r' ih =>
    intro c hc
    rw [collapseWs_cons₂]
    by_cases h2 : isSpaceChar c2 = true
    · rw [if_pos (by simp [hc, h2])]
      exact ih c2 h2
    · rw [if_neg (by simp [h2]), if_pos hc]
      rfl

/-- A collapsed list beginning with non-whitespace keeps its head. -/
theorem collapseWs_head_nonspace (r : List Char) (c : Char) (hc : isSpaceChar c = false) :
    (collapseWs (c :: r)).head? = some c := by
  cases r with
  | nil => rw [collapseWs_singleton, if_neg (by simp [hc])]; rfl
  | cons c2 rest =>
    rw [collapseWs_cons₂, if_neg (by simp [hc]), if_neg (by simp [hc])]
    rfl

/-- A whitespace-free prefix of the collapsed list is a prefix of the
original list. -/
theorem collapseWs_pfx :
    ∀ (t z : List Char), (∀ x ∈ z, isSpaceChar x = false) → z <+: collapseWs t → z <+: t := by
  intro t
  induction t with
  | nil => intro z _ h; simpa [collapseWs_nil_eq] using h
  | cons c1 t' ih =>
    cases t' with
    | nil =>
      intro z hz h
      rw [collapseWs_singleton] at h
      by_cases hsp : isSpaceChar c1 = true
      · rw [if_pos hsp] at h
        cases z with
        | nil => exact List.nil_prefix
        | cons z0 z' =>
          rcases List.cons_prefix_cons.mp h with ⟨hz0, _⟩
          have := hz z0 (List.mem_cons_self _ _)
          rw [hz0, isSpaceChar_space] at this
          cases this
      · rw [if_neg hsp] at h
        exact h
    | cons c2 rest =>
      intro z hz h
      rw [collapseWs_cons₂] at h
      by_cases hb : (isSpaceChar c1 && isSpaceChar c2) = true
      · rw [if_pos hb] at h
        cases z with
        | nil => exact List.nil_prefix
        | cons z0 z' =>
          have hc2 : isSpaceChar c2 = true := by
            have hb2 := hb
            simp only [Bool.and_eq_true] at hb2
            exact hb2.2
          have hhead := collapseWs_head_space rest c2 hc2
          obtain ⟨tt, htt⟩ := h
          have hz0 : (collapseWs (c2 :: rest)).head? = some z0 := by
            rw [← htt]; rfl
          rw [hhead] at hz0
          injection hz0 with hz0
          have := hz z0 (List.mem_cons_self _ _)
          rw [← hz0, isSpaceChar_space] at this
          cases this
      · rw [if_neg hb] at h
        cases z with
        | nil => exact List.nil_prefix
        | cons z0 z' =>
          rcases List.cons_prefix_cons.mp h with ⟨hz0, hz'⟩
          by_cases hsp : isSpaceChar c1 = true
          · rw [if_pos hsp] at hz0
            have := hz z0 (List.mem_cons_self _ _)
            rw [hz0, isSpaceChar_space] at this
            cases this
          · rw [if_neg hsp] at hz0
            subst hz0
            exact List.cons_prefix_cons.mpr
              ⟨rfl, ih z' (fun x hx => hz x (List.mem_cons_of_mem _ hx)) hz'⟩

/-- A whitespace-free infix of the collapsed list is an infix of the original. -/
theorem collapseWs_within :
    ∀ (t z : List Char), (∀ x ∈ z, isSpaceChar x = false) → z <:+: collapseWs t → z <:+: t := by
  intro t
  induction t with
  | nil => intro z _ h; simpa [collapseWs_nil_eq] using h
  | cons c1 t' ih =>
    cases t' with
    | nil =>
      intro z hz h
      rw [collapseWs_singleton] at h
      rcases List.infix_cons_iff.mp h with hpre | hinf
      · exact (collapseWs_pfx [c1] z hz (by rwa [collapseWs_singleton])).isInfix
      · rw [List.infix_nil] at hinf
        subst hinf
        exact List.nil_infix
    | cons c2 rest =>
      intro z hz h
      rw [collapseWs_cons₂] at h
      by_cases hb : (isSpaceChar c1 && isSpaceChar c2) = true
      · rw [if_pos hb] at h
        exact List.infix_cons_iff.mpr (Or.inr (ih z hz h))
      · rw [if_neg hb] at h
        rcases List.infix_cons_iff.mp h with hpre | hinf
        · refine (collapseWs_pfx (c1 :: c2 :: rest) z hz ?_).isInfix
          rw [collapseWs_cons₂, if_neg hb]
          exact hpre
        · exact List.infix_cons_iff.mpr (Or.inr (ih z hz hinf))

/-- Occurrence-freeness survives whitespace collapsing. -/
theorem collapseWs_noOcc {w : List Char} (hw : goodWord w) {t : List Char}
    (h : ¬ FlankOccC none w t) : ¬ FlankOccC none w (collapseWs t) := by
  rintro (⟨x, y, hx, hy, hinf⟩ | ⟨hp, _⟩)
  · refine h (Or.inl ⟨x, y, hx, hy, ?_⟩)
    refine collapseWs_within t _ ?_ hinf
    intro d hd
    rcases List.mem_cons.mp hd with rfl | hd2
    · exact wordChar_not_space hx
    · rcases List.mem_append.mp hd2 with hd3 | hd3
      · exact (hw.2 d hd3).2
      · rw [List.mem_singleton.mp hd3]
        exact wordChar_not_space hy
  · simp [isWordOpt] at hp

/-- `trimChars` yields an infix. -/
theorem trimChars_within (l : List Char) : trimChars l <:+: l := by
  unfold trimChars
  refine List.infix_iff_prefix_suffix.mpr ⟨l.dropWhile isSpaceChar, ?_, List.dropWhile_suffix _⟩
  have h := List.dropWhile_suffix (l := (l.dropWhile isSpaceChar).reverse) isSpaceChar
  rw [← List.reverse_reverse (List.dropWhile isSpaceChar (l.dropWhile isSpaceChar).reverse)] at h
  exact List.reverse_suffix.mp h

/-- Occurrence-freeness survives trimming. -/
theorem trimChars_noOcc {w : List Char} {t : List Char}
    (h : ¬ FlankOccC none w t) : ¬ FlankOccC none w (trimChars t) := by
  rintro (⟨x, y, hx, hy, hinf⟩ | ⟨hp, _⟩)
  · exact h (Or.inl ⟨x, y, hx, hy, hinf.trans (trimChars_within t)⟩)
  · simp [isWordOpt] at hp

/-! ### Collapsing and trimming are idempotent on their own output -/

/-- Invariant of collapsed text: no two adjacent whitespace characters, and
every whitespace character is the plain space. -/
def CollapsedP (t : List Char) : Prop :=
  List.Chain' (fun a b => ¬(isSpaceChar a = true ∧ isSpaceChar b = true)) t ∧
  ∀ c ∈ t, isSpaceChar c = true → c = ' '

theorem collapseWs_collapsed : ∀ t : List Char, CollapsedP (collapseWs t) := by
  intro t
  induction t with
  | nil => exact ⟨List.chain'_nil, by simp [collapseWs_nil_eq]⟩
  | cons c1 t' ih =>
    cases t' with
    | nil =>
      rw [collapseWs_singleton]
      refine ⟨List.chain'_singleton _, ?_⟩
      intro c hc hsp
      rcases List.mem_singleton.mp hc with rfl
      by_cases h1 : isSpaceChar c1 = true
      · rw [if_pos h1]
      · rw [if_neg h1]
        rw [if_neg h1] at hsp
        rw [hsp] at h1
        exact absurd rfl h1
    | cons c2 rest =>
      rw [collapseWs_cons₂]
      by_cases hb : (isSpaceChar c1 && isSpaceChar c2) = true
      · rw [if_pos hb]; exact ih
      · rw [if_neg hb]
        refine ⟨List.chain'_cons'.mpr ⟨?_, ih.1⟩, ?_⟩
        · intro y hy
          by_cases h2 : isSpaceChar c2 = true
          · have hc1 : isSpaceChar c1 = false := by
              by_contra hx
              rw [Bool.not_eq_false] at hx
              exact hb (by simp [hx, h2])
            rw [collapseWs_head_space rest c2 h2, Option.mem_def] at hy
            injection hy with hy
            subst hy
            rw [if_neg (by simp [hc1])]
            intro hcon
            exact absurd hcon.1 (by simp [hc1])
          · rw [collapseWs_head_nonspace rest c2 (by simpa using h2), Option.mem_def] at hy
            injection hy with hy
            subst hy
            intro hcon
            exact absurd hcon.2 (by simpa using h2)
        · intro c hc hsp
          rcases List.mem_cons.mp hc with rfl | hc2
          · by_cases h1 : isSpaceChar c1 = true
            · rw [if_pos h1]
            · rw [if_neg h1]
              rw [if_neg h1] at hsp
              rw [hsp] at h1
              exact absurd rfl h1
          · exact ih.2 c hc2 hsp

theorem collapseWs_of_collapsed : ∀ t : List Char, CollapsedP t → collapseWs t = t := by
  intro t
  induction t with
  | nil => intro _; rfl
  | cons c1 t' ih =>
    cases t' with
    | nil =>
      intro h
      rw [collapseWs_singleton]
      by_cases h1 : isSpaceChar c1 = true
      · rw [if_pos h1, h.2 c1 (List.mem_cons_self _ _) h1]
      · rw [if_neg h1]
    | cons c2 rest =>
      intro h
      have hr : ¬(isSpaceChar c1 = true ∧ isSpaceChar c2 = true) := by
        have := List.chain'_cons'.mp h.1
        exact this.1 c2 rfl
      rw [collapseWs_cons₂, if_neg (by simpa [Bool.and_eq_true] using hr)]
      have htail : CollapsedP (c2 :: rest) :=
        ⟨(List.chain'_cons'.mp h.1).2, fun c hc => h.2 c (List.mem_cons_of_mem _ hc)⟩
      rw [ih htail]
      by_cases h1 : isSpaceChar c1 = true
      · rw [if_pos h1, h.2 c1 (List.mem_cons_self _ _) h1]
      · rw [if_neg h1]

theorem chain_on_middle {R : Char → Char → Prop} {l m : List Char}
    (h : List.Chain' R l) (hm : m <:+: l) : List.Chain' R m := by
  obtain ⟨u, v, huv⟩ := hm
  rw [← huv] at h
  rcases List.chain'_append.mp h with ⟨h2, _, _⟩
  rcases List.chain'_append.mp h2 with ⟨_, h3, _⟩
  exact h3

theorem trimChars_collapsed {t : List Char} (h : CollapsedP t) : CollapsedP (trimChars t) :=
  ⟨chain_on_middle h.1 (trimChars_within t), fun c hc hsp => h.2 c (mem_trimChars t c hc) hsp⟩

theorem dropWhile_eq_self_of_head {p : Char → Bool} :
    ∀ {l : List Char}, (∀ c ∈ l.head?, p c = false) → l.dropWhile p = l := by
  intro l h
  cases l with
  | nil => rfl
  | cons c r =>
    exact List.dropWhile_cons_of_neg (by simp [h c rfl])

theorem head?_dropWhile_false (p : Char → Bool) (l : List Char) :
    ∀ c ∈ (l.dropWhile p).head?, p c = false := by
  intro c hc
  have h := List.head?_dropWhile_not p l
  rw [Option.mem_def] at hc
  rw [hc] at h
  exact h

theorem getLast?_of_suffix {l₁ l₂ : List Char} (h : l₁ <:+ l₂) (hne : l₁ ≠ []) :
    l₁.getLast? = l₂.getLast? := by
  obtain ⟨t, ht⟩ := h
  rw [← ht, List.getLast?_append]
  cases hg : l₁.getLast? with
  | none => exact absurd (List.getLast?_eq_none_iff.mp hg) hne
  | some g => rfl

/-- The trimmed list does not start with whitespace. -/
theorem trimChars_head (l : List Char) :
    ∀ c ∈ (trimChars l).head?, isSpaceChar c = false := by
  intro c hc
  unfold trimChars at hc
  rw [List.head?_reverse] at hc
  by_cases hne : (l.dropWhile isSpaceChar).reverse.dropWhile isSpaceChar = []
  · rw [hne] at hc; cases hc
  · rw [getLast?_of_suffix (List.dropWhile_suffix _) hne, List.getLast?_reverse] at hc
    exact head?_dropWhile_false _ _ c hc

/-- The trimmed list does not end with whitespace. -/
theorem trimChars_getLast (l : List Char) :
    ∀ c ∈ (trimChars l).getLast?, isSpaceChar c = false := by
  intro c hc
  unfold trimChars at hc
  rw [List.getLast?_reverse] at hc
  exact head?_dropWhile_false _ _ c hc

/-- Trimming text with clean ends is the identity. -/
theorem trimChars_of_ends {l : List Char}
    (hh : ∀ c ∈ l.head?, isSpaceChar c = false)
    (hg : ∀ c ∈ l.getLast?, isSpaceChar c = false) : trimChars l = l := by
  unfold trimChars
  rw [dropWhile_eq_self_of_head hh]
  rw [dropWhile_eq_self_of_head (fun c hc => hg c (by rwa [List.head?_reverse] at hc))]
  exact List.reverse_reverse l

theorem trimChars_trim (l : List Char) : trimChars (trimChars l) = trimChars l :=
  trimChars_of_ends (trimChars_head l) (trimChars_getLast l)

/-! ### Character invariants of the pipeline and the idempotence theorem -/

/-- The scan only ever removes characters. -/
theorem mem_replaceWordGo {w : List Char} (hw : goodWord w) :
    ∀ (fuel : Nat) (prev : Option Char) (s : List Char) (c : Char),
      c ∈ replaceWordGo w fuel prev s → c ∈ s := by
  intro fuel
  induction fuel with
  | zero => intro prev s c h; exact h
  | succ F ih =>
    intro prev s c h
    cases hfm : findMatch w prev s with
    | none => rwa [replaceWordGo_of_none hfm] at h
    | some p =>
      obtain ⟨a, b⟩ := p
      obtain ⟨hs, _, _, _⟩ := findMatch_some hw s prev a b hfm
      rw [show replaceWordGo w (F + 1) prev s = a ++ replaceWordGo w F w.getLast? b from by
        rw [replaceWordGo, hfm]] at h
      rw [hs]
      rcases List.mem_append.mp h with h2 | h2
      · exact List.mem_append.mpr (Or.inl (List.mem_append.mpr (Or.inl h2)))
      · exact List.mem_append.mpr (Or.inr (ih _ _ _ h2))

/-- The whole word-removal pass only ever removes characters. -/
theorem mem_foldl_replaceWord :
    ∀ (ws : List (List Char)) (s : List Char) (c : Char), (∀ u ∈ ws, goodWord u) →
      c ∈ ws.foldl (fun acc u => replaceWord u acc) s → c ∈ s := by
  intro ws
  induction ws with
  | nil => intro s c _ h; exact h
  | cons u ws' ih =>
    intro s c hgood h
    simp only [List.foldl_cons] at h
    exact mem_replaceWordGo (hgood u (List.mem_cons_self _ _)) _ _ _ _
      (ih _ _ (fun v hv => hgood v (List.mem_cons_of_mem _ hv)) h)

theorem map_id_on {f : Char → Char} :
    ∀ {l : List Char}, (∀ c ∈ l, f c = c) → l.map f = l := by
  intro l
  induction l with
  | nil => intro _; rfl
  | cons c r ih =>
    intro h
    rw [List.map_cons, h c (List.mem_cons_self _ _),
      ih (fun d hd => h d (List.mem_cons_of_mem _ hd))]

/-- Every character of a normalized name is lowercase-stable and not a
quote character. -/
theorem cleanList_chars (l : List Char) :
    ∀ c ∈ cleanList l, toLowerCaseChar c = c ∧ isQuoteChar c = false := by
  intro c hc
  unfold cleanList at hc
  have h1 := mem_trimChars _ _ hc
  rcases mem_collapseWs _ _ h1 with h2 | h2
  · have h3 := mem_foldl_replaceWord removeWords _ c removeWords_good h2
    have h4 := mem_trimChars _ _ h3
    rcases mem_collapseWs _ _ h4 with h5 | h5
    · obtain ⟨h7, h8⟩ := List.mem_filter.mp h5
      obtain ⟨c0, _, hc0⟩ := List.mem_map.mp h7
      constructor
      · rw [← hc0]; exact toLowerCaseChar_fixed c0
      · simpa using h8
    · rw [h5]; exact ⟨toLowerCaseChar_space, isQuoteChar_space⟩
  · rw [h2]; exact ⟨toLowerCaseChar_space, isQuoteChar_space⟩

/-- Idempotence of the normalizer at the list level. -/
theorem cleanList_idem (l : List Char) : cleanList (cleanList l) = cleanList l := by
  have hchars := cleanList_chars l
  have h1 : (cleanList l).map toLowerCaseChar = cleanList l :=
    map_id_on (fun c hc => (hchars c hc).1)
  have h2 : ((cleanList l).map toLowerCaseChar).filter (fun c => !isQuoteChar c)
      = cleanList l := by
    rw [h1]
    exact List.filter_eq_self.mpr (fun c hc => by rw [(hchars c hc).2]; rfl)
  have hcol : CollapsedP (cleanList l) := by
    unfold cleanList
    exact trimChars_collapsed (collapseWs_collapsed _)
  have hcw : collapseWs (cleanList l) = cleanList l := collapseWs_of_collapsed _ hcol
  have htr : trimChars (cleanList l) = cleanList l := by
    unfold cleanList
    exact trimChars_trim _
  have hnoOcc : ∀ w ∈ removeWords, ¬ FlankOccC none w (cleanList l) := by
    intro w hwmem
    have hw := removeWords_good w hwmem
    unfold cleanList
    apply trimChars_noOcc
    apply collapseWs_noOcc hw
    exact foldl_replaceWord_noOcc removeWords _ removeWords_good w hwmem
  have hrw : removeAllWords (cleanList l) = cleanList l :=
    foldl_replaceWord_fix removeWords _ removeWords_good hnoOcc
  generalize hgen : cleanList l = u at h2 hcw htr hrw ⊢
  unfold cleanList
  rw [h2, hcw, htr, hrw, hcw, htr]

/-- C6: the Name Normalizer is idempotent — normalizing an already
normalized company name returns it unchanged, for every input string. -/
theorem c6_cleanCompanyName_idempotent (s : String) :
    cleanCompanyName (cleanCompanyName s) = cleanCompanyName s := by
  have h1 : ∀ t : String, (cleanCompanyName t).data = cleanList t.data := by
    intro t
    rw [show cleanCompanyName t = String.mk (cleanList t.data) from rfl]
  apply String.ext
  rw [h1, h1]
  exact cleanList_idem s.data
